import Mathlib

/-!
Shallow embedding of the doclink-checker repository (src/lib.rs, src/main.rs).

The embedding models:
  - the link extractor (`LinkAnalyzer::extract_links`): the two-pass parser
    over document text, with its three regexes rendered as deterministic
    character scans (the regexes involved are deterministic: every
    character class is forced by the following literal);
  - the analyzer (`analyze_directory`, `find_broken_links`,
    `find_orphaned_documents`, `get_statistics`), over an abstract path type
    and an abstract filesystem (existence test and canonicalization), since
    directory walking and file reading are external collaborators;
  - the percentage computation of `print_text_statistics` in src/main.rs.

Strings are treated as their character lists (the source operates on UTF-8
strings; the only byte-indexed operation, `target[1..]` after a '/' test, is
the one-character drop). Character classes (whitespace, lowercasing) are the
ASCII fragment, which is where the analyzed behavior lives.
-/

namespace Doclink

/-! ## String helpers (character-list based, kernel-reducible) -/

/-- `listStarts p l` is true when `p` is an initial segment of `l`.
Models `str::starts_with` for the string prefixes used by the source. -/
def listStarts : List Char → List Char → Bool
  | [], _ => true
  | _ :: _, [] => false
  | p :: ps, c :: cs => p = c && listStarts ps cs

/-- Models Rust `target.starts_with(pat)`. -/
def strStartsWith (s pat : String) : Bool :=
  listStarts pat.data s.data

/-- Models Rust `str::to_lowercase` on the ASCII fragment. -/
def strToLower (s : String) : String :=
  String.mk (s.data.map Char.toLower)

/-- Models Rust `str::trim` (whitespace stripped from both ends). -/
def strTrim (s : String) : String :=
  String.mk (((s.data.dropWhile Char.isWhitespace).reverse.dropWhile Char.isWhitespace).reverse)

/-- Models the byte slice `&s[1..]` as used on a target that starts with '/'. -/
def strDropOne (s : String) : String :=
  String.mk s.data.tail

/-- Split a character list at the first occurrence of `c`: returns the
characters before it and the characters after it (the occurrence removed). -/
def splitAtFirst (c : Char) : List Char → Option (List Char × List Char)
  | [] => none
  | x :: xs =>
    if x = c then some ([], xs)
    else (splitAtFirst c xs).map (fun p => (x :: p.1, p.2))

/-- Strip one trailing '\r' (the accumulator is the reversed line). -/
def finishLine (acc : List Char) : String :=
  match acc with
  | '\r' :: rest => String.mk rest.reverse
  | _ => String.mk acc.reverse

/-- Worker for `rustLines`: `acc` holds the current line reversed. -/
def rustLinesAux : List Char → List Char → List String
  | [], [] => []
  | [], acc => [finishLine acc]
  | '\n' :: rest, acc => finishLine acc :: rustLinesAux rest []
  | c :: rest, acc => rustLinesAux rest (c :: acc)

/-- Models Rust `str::lines()`: split on '\n', strip one trailing '\r' per
line, and do not produce a final empty line for a trailing newline. -/
def rustLines (s : String) : List String :=
  rustLinesAux s.data []

/-! ## Link extractor (LinkAnalyzer::extract_links, src/lib.rs lines 193-232) -/

/-- First pass, one line: the anchored regex
`^\[([^\]]+)\]:\s*(.+)$` of line 197. A match requires a leading '[', a
nonempty run of non-']' characters (the label: it necessarily ends at the
first ']'), the characters "]:" and a nonempty remainder. The captured URL
is the remainder past the greedy `\s*`, trimmed — which is the trimmed
remainder in every case (when the remainder is all whitespace the group
captures its last character and trims to the empty string). Returns the
lowercased label and the trimmed URL, as lines 200-201 compute them. -/
def parseRefDef (line : String) : Option (String × String) :=
  match line.data with
  | '[' :: rest =>
    match splitAtFirst ']' rest with
    | none => none
    | some (label, rest1) =>
      if label.isEmpty then none
      else
        match rest1 with
        | ':' :: r =>
          if r.isEmpty then none
          else some (strToLower (String.mk label), strTrim (String.mk r))
        | _ => none
  | _ => none

/-- Models `HashMap::insert` on the reference-definition map: overwrite the
entry with this key when present, append otherwise. -/
def insertRD (m : List (String × String)) (k v : String) : List (String × String) :=
  if m.any (fun p => p.1 = k) then
    m.map (fun p => if p.1 = k then (k, v) else p)
  else m ++ [(k, v)]

/-- Models `HashMap::get` on the reference-definition map. -/
def rdLookup (m : List (String × String)) (k : String) : Option String :=
  (m.find? (fun p => p.1 = k)).map (fun p => p.2)

/-- One step of the first pass (lines 198-204): a line matching the
definition pattern inserts into the map, any other line is ignored. -/
def rdStep (m : List (String × String)) (line : String) : List (String × String) :=
  match parseRefDef line with
  | some kv => insertRD m kv.1 kv.2
  | none => m

/-- The whole first pass over the document's lines. -/
def buildRefDefs (lines : List String) : List (String × String) :=
  lines.foldl rdStep []

/-- Attempt of the inline regex `\[([^\]]+)\]\(([^)]+)\)` (line 206) at a
position whose '[' has just been consumed; `l` is the rest of the line.
The regex is deterministic: the text group runs to the first ']', a '('
must follow, the target group runs to the first ')'. Returns text, target
and the remainder of the line after the match. -/
def matchInlineAfterBracket (l : List Char) : Option (List Char × List Char × List Char) :=
  match splitAtFirst ']' l with
  | none => none
  | some (text, rest1) =>
    if text.isEmpty then none
    else
      match rest1 with
      | [] => none
      | c :: rest2 =>
        if c = '(' then
          match splitAtFirst ')' rest2 with
          | none => none
          | some (target, rest3) =>
            if target.isEmpty then none else some (text, target, rest3)
        else none

/-- Non-overlapping left-to-right scan of `captures_iter` for the inline
regex, with fuel (the list length suffices; matches only start at '[',
a failed attempt advances one character, a successful match resumes after
its closing ')'). -/
def inlineScanF : Nat → List Char → List (String × String)
  | 0, _ => []
  | _, [] => []
  | fuel + 1, c :: rest =>
    if c = '[' then
      match matchInlineAfterBracket rest with
      | some (text, target, rest1) =>
        (String.mk text, String.mk target) :: inlineScanF fuel rest1
      | none => inlineScanF fuel rest
    else inlineScanF fuel rest

/-- All inline-link captures of one line, in left-to-right order. -/
def inlineScan (l : List Char) : List (String × String) :=
  inlineScanF l.length l

/-- Attempt of the reference regex `\[([^\]]+)\]\[([^\]]*)\]` (line 207)
after a consumed '['. The label group may be empty. -/
def matchRefAfterBracket (l : List Char) : Option (List Char × List Char × List Char) :=
  match splitAtFirst ']' l with
  | none => none
  | some (text, rest1) =>
    if text.isEmpty then none
    else
      match rest1 with
      | [] => none
      | c :: rest2 =>
        if c = '[' then
          match splitAtFirst ']' rest2 with
          | none => none
          | some (label, rest3) => some (text, label, rest3)
        else none

/-- Non-overlapping left-to-right scan for the reference-style regex. -/
def refScanF : Nat → List Char → List (String × String)
  | 0, _ => []
  | _, [] => []
  | fuel + 1, c :: rest =>
    if c = '[' then
      match matchRefAfterBracket rest with
      | some (text, label, rest1) =>
        (String.mk text, String.mk label) :: refScanF fuel rest1
      | none => refScanF fuel rest
    else refScanF fuel rest

/-- All reference-style captures of one line, in left-to-right order. -/
def refScan (l : List Char) : List (String × String) :=
  refScanF l.length l

/-- The lookup key of a reference-style occurrence (lines 219-223):
the label lowercased, or the text lowercased when the label is empty. -/
def refKey (text label : String) : String :=
  if label = "" then strToLower text else strToLower label

/-- The links contributed by one line of the second pass (lines 209-229):
every inline capture is emitted, then every reference capture whose key is
found by `lookupFn` is emitted with the dictionary URL; `i` is the
zero-based line index, reported as `i + 1`. -/
def lineSeg (lookupFn : String → Option String) (i : Nat) (line : String) :
    List (String × String × Nat) :=
  (inlineScan line.data).map (fun p => (p.1, p.2, i + 1)) ++
    (refScan line.data).filterMap
      (fun p => (lookupFn (refKey p.1 p.2)).map (fun url => (p.1, url, i + 1)))

/-- `LinkAnalyzer::extract_links` (src/lib.rs lines 193-232): first pass
builds the definition map, second pass emits links line by line. -/
def extract_links (content : String) : List (String × String × Nat) :=
  let lines := rustLines content
  let defs := buildRefDefs lines
  (List.enumFrom 0 lines).flatMap (fun p => lineSeg (rdLookup defs) p.1 p.2)

/-- The reference-definition dictionary as the spec's words describe it
(spec §4.1 step 1): the URL of the last definition line carrying this
(lowercased) label, if any — "the later definition overwrites the earlier
one". Stated directly over the list of definition lines, to be compared
with the map-fold the code performs. -/
def lastDefLookup (lines : List String) (k : String) : Option String :=
  (((lines.filterMap parseRefDef).filter (fun p => p.1 = k)).getLast?).map (fun p => p.2)

/-- `extract_links` as the spec's words describe it: identical second pass,
but reference lookups consult the last matching definition line directly. -/
def extract_links_spec (content : String) : List (String × String × Nat) :=
  let lines := rustLines content
  (List.enumFrom 0 lines).flatMap (fun p => lineSeg (lastDefLookup lines) p.1 p.2)

/-! ## Paths and the filesystem model

The source works with `std::path::PathBuf`. A path is modeled as an
absoluteness flag plus a list of components; `join` follows the `PathBuf`
semantics the source relies on (joining an absolute path replaces the
receiver, otherwise components are appended), `parent` drops the final
component and is `none` exactly for component-less paths (a bare root or
the empty path), matching `Path::parent`. Special components ("." and
"..") are carried as ordinary components: the source never normalizes
paths itself, it defers that entirely to `canonicalize`.

The filesystem (existence test and canonicalization) is an external
collaborator and is modeled as a pair of unconstrained functions. -/

structure FsPath where
  absolute : Bool
  components : List String
deriving DecidableEq, Repr

/-- Models `PathBuf::join` with an already-parsed right operand. -/
def FsPath.join (p q : FsPath) : FsPath :=
  if q.absolute then q else ⟨p.absolute, p.components ++ q.components⟩

/-- Split on '/' (worker: `acc` holds the current component reversed). -/
def splitSlashAux : List Char → List Char → List String
  | [], acc => [String.mk acc.reverse]
  | '/' :: rest, acc => String.mk acc.reverse :: splitSlashAux rest []
  | c :: rest, acc => splitSlashAux rest (c :: acc)

/-- Parse a target string into a path: absolute when it starts with '/',
components split on '/' with empty components dropped. -/
def parsePath (s : String) : FsPath :=
  ⟨strStartsWith s "/", (splitSlashAux s.data []).filter (fun c => !c.data.isEmpty)⟩

/-- Models `Path::parent`: `none` for a bare root or the empty path,
otherwise the path without its final component. -/
def FsPath.parent (p : FsPath) : Option FsPath :=
  match p.components with
  | [] => none
  | _ :: _ => some ⟨p.absolute, p.components.dropLast⟩

/-- Join components with '/' separators. -/
def joinComponents : List String → String
  | [] => ""
  | [c] => c
  | c :: rest => c ++ "/" ++ joinComponents rest

/-- Render a path for the broken-link reason string (`Path::display`). -/
def FsPath.display (p : FsPath) : String :=
  (if p.absolute then "/" else "") ++ joinComponents p.components

/-- The part of a file name after its final '.', given the name with a
leading '.' (a hidden-file marker, not an extension separator) removed. -/
def extAfterDot (l : List Char) : Option String :=
  if l.contains '.' then some (String.mk ((l.reverse.takeWhile (fun c => c ≠ '.')).reverse))
  else none

/-- Models `Path::extension` on a file name: `none` when there is no
embedded '.', a leading '.' alone does not start an extension. -/
def extOf (name : String) : Option String :=
  match name.data with
  | [] => none
  | c :: rest => extAfterDot (if c = '.' then rest else c :: rest)

/-- Models `path.extension()` : the extension of the last component. -/
def extensionOf (p : FsPath) : Option String :=
  p.components.getLast?.bind extOf

/-- The filesystem as the analyzer sees it: an existence test
(`Path::exists`) and canonicalization (`Path::canonicalize`, which fails —
returns `none` — when the path cannot be resolved). -/
structure Fs where
  exists? : FsPath → Bool
  canon : FsPath → Option FsPath

/-! ## Data model (src/lib.rs lines 8-44) -/

structure MarkdownLink where
  text : String
  target : String
  line_number : Nat
  file_path : FsPath
deriving DecidableEq, Repr

structure BrokenLink where
  link : MarkdownLink
  reason : String
deriving DecidableEq, Repr

structure DocumentStats where
  total_links : Nat
  internal_links : Nat
  external_links : Nat
deriving DecidableEq, Repr

structure LinkStatistics where
  total_documents : Nat := 0
  total_links : Nat := 0
  internal_links : Nat := 0
  external_links : Nat := 0
  broken_links : Nat := 0
  orphaned_documents : Nat := 0
  document_stats : List (FsPath × DocumentStats) := []
deriving DecidableEq, Repr

/-- The document corpus `documents: HashMap<PathBuf, Vec<MarkdownLink>>`,
modeled as an association list with unique keys kept in insertion order. -/
abbrev Corpus := List (FsPath × List MarkdownLink)

/-- The target classification of the source (repeated at lines 84, 118,
161, 180): external iff the target starts with http:// or https://. -/
def isExternalTarget (t : String) : Bool :=
  strStartsWith t "http://" || strStartsWith t "https://"

/-- Models `HashMap::insert` on the corpus: overwrite when the key is
present, append otherwise. -/
def insertDoc (docs : Corpus) (k : FsPath) (v : List MarkdownLink) : Corpus :=
  if docs.any (fun p => p.1 = k) then
    docs.map (fun p => if p.1 = k then (k, v) else p)
  else docs ++ [(k, v)]

/-! ## Population (LinkAnalyzer::analyze_directory, src/lib.rs lines 54-77) -/

/-- One entry of the walk stream: a path, or a walk error
(`walkdir::Result<DirEntry>`). -/
inductive WalkEntry where
  | ok (path : FsPath)
  | err (msg : String)
deriving DecidableEq, Repr

/-- The extracted links of one document, with the file path attached
(lines 61-71). -/
def toLinks (path : FsPath) (content : String) : List MarkdownLink :=
  (extract_links content).map (fun t => ⟨t.1, t.2.1, t.2.2, path⟩)

/-- `analyze_directory`: walk the entries in order; a walk error or a read
error of a .md file returns early with that error, leaving the documents
map in its current (possibly already updated) state; other entries with
extension "md" are read, extracted and inserted. The pair returned is the
final state of `self.documents` together with the error, if any
(the Rust method mutates `&mut self` and returns `Result<()>`). -/
def analyze_directory (docs : Corpus) (readFile : FsPath → Except String String) :
    List WalkEntry → Corpus × Option String
  | [] => (docs, none)
  | WalkEntry.err msg :: _ => (docs, some msg)
  | WalkEntry.ok path :: rest =>
    if extensionOf path = some "md" then
      match readFile path with
      | Except.error msg => (docs, some msg)
      | Except.ok content =>
        analyze_directory (insertDoc docs path (toLinks path content)) readFile rest
    else analyze_directory docs readFile rest

/-- An entry at which the population loop aborts: a walk error, or a .md
file whose read fails. -/
def entryFails (readFile : FsPath → Except String String) : WalkEntry → Bool
  | WalkEntry.err _ => true
  | WalkEntry.ok path =>
    extensionOf path = some "md" &&
      match readFile path with
      | Except.error _ => true
      | Except.ok _ => false

/-- The successful processing of a failure-free prefix of the walk:
every .md entry is read and inserted (the read cannot fail on such a
prefix; a failing read contributes nothing, keeping the function total). -/
def processPre (docs : Corpus) (readFile : FsPath → Except String String) :
    List WalkEntry → Corpus
  | [] => docs
  | WalkEntry.err _ :: rest => processPre docs readFile rest
  | WalkEntry.ok path :: rest =>
    if extensionOf path = some "md" then
      match readFile path with
      | Except.error _ => processPre docs readFile rest
      | Except.ok content =>
        processPre (insertDoc docs path (toLinks path content)) readFile rest
    else processPre docs readFile rest

/-! ## Queries (src/lib.rs lines 79-191) -/

/-- `find_broken_links` (lines 79-109): external targets are skipped; the
target is resolved (lines 88-95: a leading '/' resolves under the base
path with the slash stripped, otherwise under the containing document's
parent, the base path when there is none), canonicalized with fallback to
the joined path (line 97), and reported when the result does not exist. -/
def find_broken_links (docs : Corpus) (base : FsPath) (fs : Fs) : List BrokenLink :=
  docs.flatMap (fun d =>
    d.2.filterMap (fun link =>
      if isExternalTarget link.target then none
      else
        let resolved :=
          if strStartsWith link.target "/" then
            FsPath.join base (parsePath (strDropOne link.target))
          else
            FsPath.join ((FsPath.parent d.1).getD base) (parsePath link.target)
        let resolved2 := (fs.canon resolved).getD resolved
        if fs.exists? resolved2 then none
        else some ⟨link, "File not found: " ++ FsPath.display resolved2⟩))

/-- `find_orphaned_documents` (lines 111-147): the referenced set is seeded
with basePath/README.md and basePath/readme.md as written (lines 113-114,
not canonicalized), extended by the canonicalizations of every internal
link's resolved target (resolution duplicated from the broken-link query,
lines 122-129; canonicalization failures are dropped, lines 131-133); a
document is reported when its own path canonicalizes and the result is
not in the set (documents whose canonicalization fails are skipped). -/
def find_orphaned_documents (docs : Corpus) (base : FsPath) (fs : Fs) : List FsPath :=
  let referenced : List FsPath :=
    [FsPath.join base (parsePath "README.md"), FsPath.join base (parsePath "readme.md")] ++
      docs.flatMap (fun d =>
        d.2.filterMap (fun link =>
          if isExternalTarget link.target then none
          else
            let resolved :=
              if strStartsWith link.target "/" then
                FsPath.join base (parsePath (strDropOne link.target))
              else
                FsPath.join ((FsPath.parent d.1).getD base) (parsePath link.target)
            fs.canon resolved))
  docs.filterMap (fun d =>
    match fs.canon d.1 with
    | some c => if c ∈ referenced then none else some d.1
    | none => none)

/-! ## Statistics (LinkAnalyzer::get_statistics, src/lib.rs lines 149-191) -/

/-- The body of the per-document loop (lines 154-177): add the document's
link count to the running total and record its per-document breakdown
(the source counts internal/external with a loop over the links; the
counts are the lengths of the corresponding filters). -/
def statsDocStep (st : LinkStatistics) (d : FsPath × List MarkdownLink) : LinkStatistics :=
  { st with
    total_links := st.total_links + d.2.length,
    document_stats := st.document_stats ++
      [(d.1, ⟨d.2.length,
              (d.2.filter (fun l => !isExternalTarget l.target)).length,
              (d.2.filter (fun l => isExternalTarget l.target)).length⟩)] }

/-- The body of the loop over all links (lines 179-185). -/
def statsLinkStep (st : LinkStatistics) (l : MarkdownLink) : LinkStatistics :=
  if isExternalTarget l.target then { st with external_links := st.external_links + 1 }
  else { st with internal_links := st.internal_links + 1 }

/-- `get_statistics`: the default snapshot with the document count set,
run through both loops, then the broken-link and orphan counts obtained
by invoking the two queries (lines 187-188). -/
def get_statistics (docs : Corpus) (base : FsPath) (fs : Fs) : LinkStatistics :=
  let st1 := docs.foldl statsDocStep { total_documents := docs.length }
  let st2 := (docs.flatMap (fun d => d.2)).foldl statsLinkStep st1
  { st2 with
    broken_links := (find_broken_links docs base fs).length,
    orphaned_documents := (find_orphaned_documents docs base fs).length }

/-! ## CLI percentage computation (print_text_statistics, src/main.rs lines 130-143) -/

/-- The two percentage figures of the text report: guarded truncating
division, 0 when there are no links. -/
def textPercentages (stats : LinkStatistics) : Nat × Nat :=
  (if stats.total_links > 0 then stats.internal_links * 100 / stats.total_links else 0,
   if stats.total_links > 0 then stats.external_links * 100 / stats.total_links else 0)

/-! ## Claim-side definitions (what the claims assert, for comparison) -/

/-- The shared path-resolution join rule (spec §4.2): a target with a
leading '/' resolves under the base path with the slash stripped,
any other target under the containing document's parent directory,
the base path when there is none. -/
def resolve_rule (base docPath : FsPath) (target : String) : FsPath :=
  if strStartsWith target "/" then FsPath.join base (parsePath (strDropOne target))
  else FsPath.join ((FsPath.parent docPath).getD base) (parsePath target)

/-- Canonicalization with fallback (spec §4.2): keep the joined path when
canonicalization fails. -/
def canonFallback (fs : Fs) (p : FsPath) : FsPath :=
  (fs.canon p).getD p

/-- Orphan detection as claim C7 describes it: the referenced-target set
built with the fallback-retention rule (`canonFallback`) instead of
dropping canonicalization failures. -/
def find_orphaned_claim (docs : Corpus) (base : FsPath) (fs : Fs) : List FsPath :=
  let referenced : List FsPath :=
    [FsPath.join base (parsePath "README.md"), FsPath.join base (parsePath "readme.md")] ++
      docs.flatMap (fun d =>
        d.2.filterMap (fun link =>
          if isExternalTarget link.target then none
          else some (canonFallback fs (resolve_rule base d.1 link.target))))
  docs.filterMap (fun d =>
    match fs.canon d.1 with
    | some c => if c ∈ referenced then none else some d.1
    | none => none)

/-! ## Concrete instances used by counterexamples and witnesses -/

namespace Cex

/-- A canonical-looking absolute base directory. -/
def base : FsPath := ⟨true, ["r"]⟩

/-- The README document directly under the base. -/
def readme : FsPath := ⟨true, ["r", "README.md"]⟩

/-- A path a filesystem may canonicalize the README to (e.g. through a
symlinked base directory). -/
def q : FsPath := ⟨true, ["q"]⟩

/-- A filesystem on which everything exists and canonicalization is the
identity. -/
def fsId : Fs := ⟨fun _ => true, fun p => some p⟩

/-- A filesystem on which the README canonicalizes to a different
representation than the one the seed set stores. -/
def fsReadmeMoved : Fs := ⟨fun _ => true, fun p => if p = readme then some q else some p⟩

def pa : FsPath := ⟨true, ["r", "a.md"]⟩
def pb : FsPath := ⟨true, ["r", "b.md"]⟩

/-- A reader that succeeds on `pa` and fails on everything else. -/
def readPaOnly : FsPath → Except String String :=
  fun p => if p = pa then Except.ok "" else Except.error "boom"

/-- A relative (hence neither absolute nor canonical) markdown path. -/
def rel : FsPath := ⟨false, ["doc.md"]⟩

/-- The resolved target of `linkA` below. -/
def ptarget : FsPath := ⟨true, ["r", "link"]⟩

/-- An internal link in `pa` whose resolved target is `ptarget`. -/
def linkA : MarkdownLink := ⟨"t", "link", 1, pa⟩

/-- A filesystem on which the resolved target `ptarget` fails to
canonicalize while the document `pb` canonicalizes to `ptarget` (and
everything exists). -/
def fsDropTarget : Fs :=
  ⟨fun _ => true, fun p => if p = ptarget then none else if p = pb then some ptarget else some p⟩

end Cex

end Doclink

namespace Doclink

/-! # Theorems -/

/-! ## Statistics helper lemmas -/

theorem statsDocStep_internal (st : LinkStatistics) (d : FsPath × List MarkdownLink) :
    (statsDocStep st d).internal_links = st.internal_links := rfl

theorem statsDocStep_external (st : LinkStatistics) (d : FsPath × List MarkdownLink) :
    (statsDocStep st d).external_links = st.external_links := rfl

theorem foldl_statsDocStep_internal (docs : Corpus) (st : LinkStatistics) :
    (docs.foldl statsDocStep st).internal_links = st.internal_links := by
  induction docs generalizing st with
  | nil => rfl
  | cons d ds ih => rw [List.foldl_cons, ih, statsDocStep_internal]

theorem foldl_statsDocStep_external (docs : Corpus) (st : LinkStatistics) :
    (docs.foldl statsDocStep st).external_links = st.external_links := by
  induction docs generalizing st with
  | nil => rfl
  | cons d ds ih => rw [List.foldl_cons, ih, statsDocStep_external]

theorem foldl_statsDocStep_total (docs : Corpus) (st : LinkStatistics) :
    (docs.foldl statsDocStep st).total_links =
      st.total_links + (docs.flatMap (fun d => d.2)).length := by
  induction docs generalizing st with
  | nil => simp
  | cons d ds ih =>
    rw [List.foldl_cons, ih]
    simp only [statsDocStep, List.flatMap_cons, List.length_append]
    omega

theorem foldl_statsLinkStep_total (links : List MarkdownLink) (st : LinkStatistics) :
    (links.foldl statsLinkStep st).total_links = st.total_links := by
  induction links generalizing st with
  | nil => rfl
  | cons l ls ih =>
    rw [List.foldl_cons, ih]
    by_cases h : isExternalTarget l.target <;> simp [statsLinkStep, h]

theorem foldl_statsLinkStep_internal (links : List MarkdownLink) (st : LinkStatistics) :
    (links.foldl statsLinkStep st).internal_links =
      st.internal_links + (links.filter (fun l => !isExternalTarget l.target)).length := by
  induction links generalizing st with
  | nil => simp
  | cons l ls ih =>
    rw [List.foldl_cons, ih]
    by_cases h : isExternalTarget l.target <;> simp [statsLinkStep, h, List.filter_cons]
    all_goals omega

theorem foldl_statsLinkStep_external (links : List MarkdownLink) (st : LinkStatistics) :
    (links.foldl statsLinkStep st).external_links =
      st.external_links + (links.filter (fun l => isExternalTarget l.target)).length := by
  induction links generalizing st with
  | nil => simp
  | cons l ls ih =>
    rw [List.foldl_cons, ih]
    by_cases h : isExternalTarget l.target <;> simp [statsLinkStep, h, List.filter_cons]
    all_goals omega

theorem length_filter_classify (l : List MarkdownLink) :
    (l.filter (fun x => !isExternalTarget x.target)).length +
      (l.filter (fun x => isExternalTarget x.target)).length = l.length := by
  induction l with
  | nil => rfl
  | cons a l ih =>
    by_cases h : isExternalTarget a.target <;> simp [List.filter_cons, h] <;> omega

/-! ## Claim theorems: C8, C9, C7 -/

/-- C8: on any populated corpus, the snapshot's broken-link and orphan
counts are exactly the lengths of what `find_broken_links` and
`find_orphaned_documents` return on the same corpus, and the total link
count is the sum of the internal and external counts, which are the counts
of all links under the http/https prefix classification. -/
theorem c8_statistics_consistency (docs : Corpus) (base : FsPath) (fs : Fs) :
    (get_statistics docs base fs).broken_links = (find_broken_links docs base fs).length ∧
    (get_statistics docs base fs).orphaned_documents =
      (find_orphaned_documents docs base fs).length ∧
    (get_statistics docs base fs).total_links =
      (get_statistics docs base fs).internal_links +
        (get_statistics docs base fs).external_links ∧
    (get_statistics docs base fs).internal_links =
      ((docs.flatMap (fun d => d.2)).filter (fun l => !isExternalTarget l.target)).length ∧
    (get_statistics docs base fs).external_links =
      ((docs.flatMap (fun d => d.2)).filter (fun l => isExternalTarget l.target)).length := by
  have hi : (get_statistics docs base fs).internal_links =
      ((docs.flatMap (fun d => d.2)).filter (fun l => !isExternalTarget l.target)).length := by
    simp only [get_statistics]
    rw [foldl_statsLinkStep_internal, foldl_statsDocStep_internal]
    simp
  have he : (get_statistics docs base fs).external_links =
      ((docs.flatMap (fun d => d.2)).filter (fun l => isExternalTarget l.target)).length := by
    simp only [get_statistics]
    rw [foldl_statsLinkStep_external, foldl_statsDocStep_external]
    simp
  have ht : (get_statistics docs base fs).total_links =
      (docs.flatMap (fun d => d.2)).length := by
    simp only [get_statistics]
    rw [foldl_statsLinkStep_total, foldl_statsDocStep_total]
    simp
  refine ⟨rfl, rfl, ?_, hi, he⟩
  rw [hi, he, ht, ← length_filter_classify (docs.flatMap (fun d => d.2))]

/-- C9: each percentage figure of the text statistics report is the
truncating integer division count * 100 / total_links, and when
total_links is 0 both figures are 0 (the guard prevents a division by
zero; Lean's Nat division makes the unguarded form agree). -/
theorem c9_percentage_truncation (stats : LinkStatistics) :
    textPercentages stats =
      (stats.internal_links * 100 / stats.total_links,
       stats.external_links * 100 / stats.total_links) ∧
    (stats.total_links = 0 → textPercentages stats = (0, 0)) := by
  constructor
  · by_cases h : stats.total_links > 0
    · simp [textPercentages, h]
    · have h0 : stats.total_links = 0 := by omega
      simp [textPercentages, h0]
  · intro h
    simp [textPercentages, h]

/-- Witness for C9 at a concrete snapshot with no links. -/
theorem c9_percentage_truncation_witness :
    ({} : LinkStatistics).total_links = 0 ∧ textPercentages {} = (0, 0) :=
  ⟨rfl, (c9_percentage_truncation {}).2 rfl⟩

/-- C7 (amended): both queries resolve every internal target with the same
join rule (`resolve_rule`: leading '/' resolves under the base path with
the slash stripped, anything else under the containing document's parent,
the base path when there is none); broken-link detection then
canonicalizes with fallback to the joined path (`canonFallback`), while
orphan detection's referenced-target construction canonicalizes and drops
targets whose canonicalization fails (rather than retaining the joined
path, which is where the claim as stated fails). -/
theorem c7_resolution_rule (docs : Corpus) (base : FsPath) (fs : Fs) :
    find_broken_links docs base fs =
      docs.flatMap (fun d =>
        d.2.filterMap (fun link =>
          if isExternalTarget link.target then none
          else
            let r := canonFallback fs (resolve_rule base d.1 link.target)
            if fs.exists? r then none
            else some ⟨link, "File not found: " ++ FsPath.display r⟩)) ∧
    find_orphaned_documents docs base fs =
      (let referenced : List FsPath :=
        [FsPath.join base (parsePath "README.md"), FsPath.join base (parsePath "readme.md")] ++
          docs.flatMap (fun d =>
            d.2.filterMap (fun link =>
              if isExternalTarget link.target then none
              else fs.canon (resolve_rule base d.1 link.target)))
      docs.filterMap (fun d =>
        match fs.canon d.1 with
        | some c => if c ∈ referenced then none else some d.1
        | none => none)) :=
  ⟨rfl, rfl⟩

/-- C7 counterexample: a corpus with one internal link whose joined target
fails to canonicalize. The code's orphan query drops the reference, so the
linked document `Cex.pb` (whose canonical form is exactly that joined
target) is reported orphaned; under the claim's
retain-the-uncanonicalized-path rule (`find_orphaned_claim`) it would not
be. -/
theorem c7_counterexample :
    find_orphaned_documents [(Cex.pa, [Cex.linkA]), (Cex.pb, [])] Cex.base Cex.fsDropTarget =
      [Cex.pa, Cex.pb] ∧
    find_orphaned_claim [(Cex.pa, [Cex.linkA]), (Cex.pb, [])] Cex.base Cex.fsDropTarget =
      [Cex.pa] := by
  constructor <;> decide

/-! ## Population claims: C1, C3 -/

/-- C1 (amended): if any walk entry fails — a walk error, or a .md file
whose read fails — the population call errors, but the document mapping is
NOT rolled back: it ends as the original mapping extended by every .md
file processed before the first failing entry. -/
theorem c1_failure_aborts_with_partial_corpus (docs : Corpus)
    (readFile : FsPath → Except String String) (entries : List WalkEntry)
    (h : ∃ e ∈ entries, entryFails readFile e = true) :
    (analyze_directory docs readFile entries).2.isSome = true ∧
    (analyze_directory docs readFile entries).1 =
      processPre docs readFile (entries.takeWhile (fun e => !entryFails readFile e)) := by
  induction entries generalizing docs with
  | nil => simp at h
  | cons e rest ih =>
    by_cases hf : entryFails readFile e = true
    · cases e with
      | err msg =>
        simp [analyze_directory, List.takeWhile_cons, hf, processPre]
      | ok path =>
        have hmd : extensionOf path = some "md" := by
          by_contra hc
          simp [entryFails, hc] at hf
        obtain ⟨msg, hr⟩ : ∃ msg, readFile path = Except.error msg := by
          cases hr : readFile path with
          | error m => exact ⟨m, rfl⟩
          | ok c => simp [entryFails, hmd, hr] at hf
        simp [analyze_directory, hmd, hr, List.takeWhile_cons, hf, processPre]
    · have h' : ∃ e' ∈ rest, entryFails readFile e' = true := by
        obtain ⟨e', he', hfe⟩ := h
        cases he' with
        | head => exact absurd hfe hf
        | tail _ ht => exact ⟨e', ht, hfe⟩
      cases e with
      | err msg => simp [entryFails] at hf
      | ok path =>
        by_cases hmd : extensionOf path = some "md"
        · cases hr : readFile path with
          | error m =>
            exfalso
            apply hf
            simp [entryFails, hmd, hr]
          | ok content =>
            have hrec := ih (insertDoc docs path (toLinks path content)) h'
            simp [analyze_directory, hmd, hr, List.takeWhile_cons, hf, processPre, hrec]
        · have hrec := ih docs h'
          simp [analyze_directory, hmd, List.takeWhile_cons, hf, processPre, hrec]

/-- Witness for C1 (amended) at a concrete failing walk. -/
theorem c1_failure_aborts_with_partial_corpus_witness :
    (∃ e ∈ [WalkEntry.ok Cex.pb], entryFails Cex.readPaOnly e = true) ∧
    (analyze_directory [] Cex.readPaOnly [WalkEntry.ok Cex.pb]).2.isSome = true ∧
    (analyze_directory [] Cex.readPaOnly [WalkEntry.ok Cex.pb]).1 =
      processPre [] Cex.readPaOnly
        ([WalkEntry.ok Cex.pb].takeWhile (fun e => !entryFails Cex.readPaOnly e)) :=
  ⟨by decide, c1_failure_aborts_with_partial_corpus [] Cex.readPaOnly [WalkEntry.ok Cex.pb]
    (by decide)⟩

/-- C1 counterexample: two .md entries, the first reads fine, the second's
read fails. The population call errors but the document processed first
remains inserted, so the mapping is not unchanged (not empty). -/
theorem c1_counterexample :
    (analyze_directory [] Cex.readPaOnly [WalkEntry.ok Cex.pa, WalkEntry.ok Cex.pb]).2 =
      some "boom" ∧
    (analyze_directory [] Cex.readPaOnly [WalkEntry.ok Cex.pa, WalkEntry.ok Cex.pb]).1 =
      [(Cex.pa, [])] ∧
    ([(Cex.pa, [])] : Corpus) ≠ [] := by
  refine ⟨by decide, by decide, by decide⟩

/-- Keys of `insertDoc`: unchanged on overwrite, extended by the inserted
path on append. -/
theorem insertDoc_keys (docs : Corpus) (p : FsPath) (v : List MarkdownLink) (k : FsPath)
    (h : k ∈ (insertDoc docs p v).map Prod.fst) : k ∈ docs.map Prod.fst ∨ k = p := by
  rw [insertDoc] at h
  by_cases hc : docs.any (fun q => q.1 = p)
  · rw [if_pos hc] at h
    left
    have hkeys : (docs.map (fun q => if q.1 = p then (p, v) else q)).map Prod.fst =
        docs.map Prod.fst := by
      rw [List.map_map]
      apply List.map_congr_left
      intro x _
      by_cases hxp : x.1 = p <;> simp [hxp]
    rwa [hkeys] at h
  · rw [if_neg hc, List.map_append] at h
    rcases List.mem_append.1 h with h | h
    · exact Or.inl h
    · right
      simpa using h

/-- C3 (amended): population never canonicalizes: every key of the
resulting document mapping is either a key that was already present or
verbatim the path of one of the walker's entries. (Consequently keys are
absolute or canonical only when the walker's paths are.) -/
theorem c3_keys_verbatim_from_walker (docs : Corpus)
    (readFile : FsPath → Except String String) (entries : List WalkEntry) (k : FsPath)
    (h : k ∈ (analyze_directory docs readFile entries).1.map Prod.fst) :
    k ∈ docs.map Prod.fst ∨ WalkEntry.ok k ∈ entries := by
  induction entries generalizing docs with
  | nil =>
    left
    simpa [analyze_directory] using h
  | cons e rest ih =>
    cases e with
    | err msg =>
      left
      simpa [analyze_directory] using h
    | ok path =>
      by_cases hmd : extensionOf path = some "md"
      · cases hr : readFile path with
        | error m =>
          left
          rw [analyze_directory, if_pos hmd, hr] at h
          simpa using h
        | ok content =>
          rw [analyze_directory, if_pos hmd, hr] at h
          rcases ih (insertDoc docs path (toLinks path content)) h with hk | hk
          · rcases insertDoc_keys docs path (toLinks path content) k hk with hk' | hk'
            · exact Or.inl hk'
            · right
              rw [hk']
              exact List.mem_cons_self _ _
          · right
            exact List.mem_cons_of_mem _ hk
      · rw [analyze_directory, if_neg hmd] at h
        rcases ih docs h with hk | hk
        · exact Or.inl hk
        · right
          exact List.mem_cons_of_mem _ hk

/-- Witness for C3 (amended): the key produced by a successful population
of one relative .md entry is that entry's path. -/
theorem c3_keys_verbatim_from_walker_witness :
    (Cex.rel ∈ (analyze_directory [] (fun _ => Except.ok "") [WalkEntry.ok Cex.rel]).1.map
      Prod.fst) ∧
    (Cex.rel ∈ ([] : Corpus).map Prod.fst ∨ WalkEntry.ok Cex.rel ∈ [WalkEntry.ok Cex.rel]) :=
  ⟨by decide,
   c3_keys_verbatim_from_walker [] (fun _ => Except.ok "") [WalkEntry.ok Cex.rel] Cex.rel
     (by decide)⟩

/-- C3 counterexample: a successful population (no error) whose only key is
a relative — hence neither absolute nor canonicalized — path, exactly as
supplied by the walker. -/
theorem c3_counterexample :
    analyze_directory [] (fun _ => Except.ok "") [WalkEntry.ok Cex.rel] =
      ([(Cex.rel, [])], none) ∧
    Cex.rel.absolute = false := by
  refine ⟨by decide, by decide⟩

/-! ## Orphan claims: C2 -/

/-- Unpack membership in the orphan filterMap: the document's own path
canonicalizes, and the result is outside the referenced set. -/
theorem mem_orphan_filterMap (docs : Corpus) (fs : Fs) (referenced : List FsPath)
    (p : FsPath)
    (h : p ∈ docs.filterMap (fun d =>
      match fs.canon d.1 with
      | some c => if c ∈ referenced then none else some d.1
      | none => none)) :
    ∃ c, fs.canon p = some c ∧ c ∉ referenced := by
  obtain ⟨d, _, hfd⟩ := List.mem_filterMap.1 h
  revert hfd
  cases hcanon : fs.canon d.1 with
  | none => simp
  | some c =>
    simp only
    by_cases hin : c ∈ referenced
    · simp [hin]
    · simp only [if_neg hin, Option.some_inj]
      intro hdp
      exact ⟨c, hdp ▸ hcanon, hin⟩

/-- Every reported orphan has a canonicalization that differs from both
seeded anchor paths. -/
theorem find_orphaned_mem_canon (docs : Corpus) (base : FsPath) (fs : Fs) (p : FsPath)
    (h : p ∈ find_orphaned_documents docs base fs) :
    ∃ c, fs.canon p = some c ∧
      c ≠ FsPath.join base (parsePath "README.md") ∧
      c ≠ FsPath.join base (parsePath "readme.md") := by
  simp only [find_orphaned_documents] at h
  obtain ⟨c, hc, hnot⟩ := mem_orphan_filterMap _ _ _ _ h
  refine ⟨c, hc, ?_, ?_⟩
  · intro he
    exact hnot (List.mem_append_left _ (he ▸ List.mem_cons_self _ _))
  · intro he
    exact hnot (List.mem_append_left _ (he ▸ List.mem_cons_of_mem _ (List.mem_cons_self _ _)))

/-- C2 (amended): a document is never reported orphaned when its own
canonicalization fails, or canonicalizes exactly to the seeded anchor
basePath/README.md or basePath/readme.md. (The seeds are stored
uncanonicalized, so the protection is keyed on the document's
canonicalized path coinciding with the literal seed path — which is where
the claim as stated fails.) -/
theorem c2_canonical_readme_not_orphaned (docs : Corpus) (base : FsPath) (fs : Fs)
    (p : FsPath)
    (h : fs.canon p = none ∨
         fs.canon p = some (FsPath.join base (parsePath "README.md")) ∨
         fs.canon p = some (FsPath.join base (parsePath "readme.md"))) :
    p ∉ find_orphaned_documents docs base fs := by
  intro hmem
  obtain ⟨c, hc, h1, h2⟩ := find_orphaned_mem_canon docs base fs p hmem
  rcases h with h | h | h
  · rw [h] at hc
    exact Option.noConfusion hc
  · rw [h] at hc
    exact h1 (Option.some_inj.1 hc).symm
  · rw [h] at hc
    exact h2 (Option.some_inj.1 hc).symm

/-- Witness for C2 (amended): on an identity-canonicalizing filesystem the
README under the base path is not orphaned even with zero inbound links. -/
theorem c2_canonical_readme_not_orphaned_witness :
    (Cex.fsId.canon Cex.readme = some (FsPath.join Cex.base (parsePath "README.md"))) ∧
    Cex.readme ∉ find_orphaned_documents [(Cex.readme, [])] Cex.base Cex.fsId :=
  ⟨by decide,
   c2_canonical_readme_not_orphaned [(Cex.readme, [])] Cex.base Cex.fsId Cex.readme
     (by decide)⟩

/-- C2 counterexample: the corpus holds exactly the document whose path is
basePath/README.md, no links anywhere, and a filesystem that canonicalizes
that path to a different representation. The README is reported orphaned,
because the seed set stores the uncanonicalized basePath/README.md while
the membership test uses the document's canonicalized path. -/
theorem c2_counterexample :
    Cex.readme = FsPath.join Cex.base (parsePath "README.md") ∧
    find_orphaned_documents [(Cex.readme, [])] Cex.base Cex.fsReadmeMoved = [Cex.readme] := by
  refine ⟨by decide, by decide⟩

/-! ## Extractor claims: C5 (reference lookup is last-wins) -/

/-- First-some choice on options. -/
def optOr {α : Type} : Option α → Option α → Option α
  | some a, _ => some a
  | none, b => b

theorem optOr_none {α : Type} (o : Option α) : optOr o none = o := by
  cases o <;> rfl

theorem none_optOr {α : Type} (o : Option α) : optOr none o = o := rfl

theorem optOr_assoc {α : Type} (a b c : Option α) :
    optOr (optOr a b) c = optOr a (optOr b c) := by
  cases a <;> rfl

theorem map_optOr {α β : Type} (f : α → β) (a b : Option α) :
    (optOr a b).map f = optOr (a.map f) (b.map f) := by
  cases a <;> rfl

theorem getLast?_cons_optOr {α : Type} (a : α) (l : List α) :
    (a :: l).getLast? = optOr l.getLast? (some a) := by
  cases l with
  | nil => rfl
  | cons b l =>
    rw [List.getLast?_cons_cons]
    cases h : (b :: l).getLast? with
    | none =>
      rw [List.getLast?_eq_none_iff] at h
      exact List.noConfusion h
    | some x => rfl

/-- The contribution one line makes to the spec-side last-wins dictionary
at key `k`. -/
def defAt (line : String) (k : String) : Option String :=
  match parseRefDef line with
  | some q => if q.1 = k then some q.2 else none
  | none => none

theorem lastDefLookup_nil (k : String) : lastDefLookup [] k = none := rfl

theorem optOr_some {α : Type} (a : α) (b : Option α) : optOr (some a) b = some a := rfl

theorem lastDefLookup_cons (l : String) (ls : List String) (k : String) :
    lastDefLookup (l :: ls) k = optOr (lastDefLookup ls k) (defAt l k) := by
  rw [lastDefLookup, lastDefLookup, defAt]
  cases hp : parseRefDef l with
  | none => rw [List.filterMap_cons_none hp, optOr_none]
  | some q =>
    rw [List.filterMap_cons_some hp, List.filter_cons]
    by_cases hq : q.1 = k <;>
      simp [hq, getLast?_cons_optOr, map_optOr, optOr_none]

theorem rdLookup_nil (k : String) : rdLookup [] k = none := rfl

theorem rdLookup_cons (x : String × String) (m : List (String × String)) (k : String) :
    rdLookup (x :: m) k = if x.1 = k then some x.2 else rdLookup m k := by
  by_cases h : x.1 = k <;> simp [rdLookup, List.find?_cons, h]

theorem rdLookup_eq_none_of_not_any (m : List (String × String)) (k : String)
    (h : m.any (fun p => p.1 = k) = false) : rdLookup m k = none := by
  induction m with
  | nil => rfl
  | cons x m ih =>
    simp only [List.any_cons, Bool.or_eq_false_iff] at h
    rw [rdLookup_cons, if_neg (by simpa using h.1)]
    exact ih h.2

theorem rdLookup_map_overwrite (m : List (String × String)) (kp v k : String) :
    rdLookup (m.map (fun p => if p.1 = kp then (kp, v) else p)) k =
      if k = kp then (if m.any (fun p => p.1 = kp) then some v else none)
      else rdLookup m k := by
  induction m with
  | nil => by_cases h : k = kp <;> simp [rdLookup, h]
  | cons x m ih =>
    by_cases hx : x.1 = kp
    · by_cases hk : k = kp
      · simp [List.map_cons, rdLookup_cons, List.any_cons, hx, hk]
      · have hk' : ¬ kp = k := fun e => hk e.symm
        simp [List.map_cons, rdLookup_cons, List.any_cons, hx, hk, hk', ih]
    · by_cases hk : k = kp
      · subst hk
        simp [List.map_cons, rdLookup_cons, List.any_cons, hx, ih]
        rw [show decide (x.1 = k) = false from by simp [hx], Bool.false_or]
      · simp [List.map_cons, rdLookup_cons, List.any_cons, hx, hk, ih]

theorem rdLookup_append_single (m : List (String × String)) (y : String × String)
    (k : String) :
    rdLookup (m ++ [y]) k = optOr (rdLookup m k) (if y.1 = k then some y.2 else none) := by
  induction m with
  | nil => rw [List.nil_append, rdLookup_cons, rdLookup_nil, none_optOr]
  | cons x m ih =>
    rw [List.cons_append, rdLookup_cons, rdLookup_cons, ih]
    by_cases h : x.1 = k <;> simp [h, optOr_some]

theorem rdLookup_insertRD (m : List (String × String)) (kp v k : String) :
    rdLookup (insertRD m kp v) k = if k = kp then some v else rdLookup m k := by
  rw [insertRD]
  by_cases hc : m.any (fun p => p.1 = kp)
  · rw [if_pos hc, rdLookup_map_overwrite, if_pos hc]
  · rw [if_neg hc, rdLookup_append_single]
    by_cases hk : k = kp
    · rw [if_pos hk,
        rdLookup_eq_none_of_not_any m k (by rw [hk]; exact Bool.eq_false_iff.2 hc),
        none_optOr, if_pos (show (kp, v).1 = k by simp [hk])]
    · rw [if_neg hk, if_neg (show ¬ (kp, v).1 = k by simp; exact fun e => hk e.symm),
        optOr_none]

theorem rdLookup_rdStep (m : List (String × String)) (line : String) (k : String) :
    rdLookup (rdStep m line) k = optOr (defAt line k) (rdLookup m k) := by
  rw [rdStep, defAt]
  cases hp : parseRefDef line with
  | none => rfl
  | some q =>
    rw [rdLookup_insertRD]
    by_cases hq : q.1 = k
    · subst hq
      simp [optOr_some]
    · have hq' : ¬ k = q.1 := fun e => hq e.symm
      simp [hq, hq', none_optOr]

theorem foldl_rdStep_lookup (lines : List String) (m : List (String × String))
    (k : String) :
    rdLookup (lines.foldl rdStep m) k = optOr (lastDefLookup lines k) (rdLookup m k) := by
  induction lines generalizing m with
  | nil => rw [List.foldl_nil, lastDefLookup_nil, none_optOr]
  | cons l ls ih =>
    rw [List.foldl_cons, ih, lastDefLookup_cons, optOr_assoc, rdLookup_rdStep]

/-- The map the first pass folds up answers lookups exactly as the
spec-side last-wins dictionary does. -/
theorem rdLookup_buildRefDefs (lines : List String) (k : String) :
    rdLookup (buildRefDefs lines) k = lastDefLookup lines k := by
  rw [buildRefDefs, foldl_rdStep_lookup, rdLookup_nil, optOr_none]

/-- C5: reference-style links resolve through the definition dictionary by
the label lowercased (the text lowercased when the label is empty); a hit
emits the dictionary URL, a miss emits nothing; and because the first pass
inserts into a single backing map, a label defined several times
(case-insensitively) answers with the LAST definition's URL. Formally:
`extract_links` coincides with `extract_links_spec`, whose lookups consult
the last matching definition line directly and whose key choice and
hit/miss emission are written from the spec's words. -/
theorem c5_reference_lookup_last_wins (content : String) :
    extract_links content = extract_links_spec content := by
  simp only [extract_links, extract_links_spec]
  rw [funext (fun k => rdLookup_buildRefDefs (rustLines content) k)]

/-! ## Extractor claims: C6 (output order) -/

theorem mem_lineSeg_lineNum (lookupFn : String → Option String) (i : Nat) (line : String)
    (x : String × String × Nat) (h : x ∈ lineSeg lookupFn i line) : x.2.2 = i + 1 := by
  rw [lineSeg] at h
  rcases List.mem_append.1 h with h | h
  · obtain ⟨p, _, hp⟩ := List.mem_map.1 h
    rw [← hp]
  · obtain ⟨p, _, hp⟩ := List.mem_filterMap.1 h
    cases hl : lookupFn (refKey p.1 p.2) with
    | none =>
      rw [hl] at hp
      exact Option.noConfusion hp
    | some url =>
      rw [hl] at hp
      rw [← Option.some_inj.1 hp]

theorem lineNum_lower_bound (lookupFn : String → Option String) (lines : List String) :
    ∀ (n : Nat) (x : String × String × Nat),
      x ∈ (List.enumFrom n lines).flatMap (fun p => lineSeg lookupFn p.1 p.2) →
      n + 1 ≤ x.2.2 := by
  induction lines with
  | nil =>
    intro n x h
    simp [List.enumFrom] at h
  | cons l ls ih =>
    intro n x h
    rw [show List.enumFrom n (l :: ls) = (n, l) :: List.enumFrom (n + 1) ls from rfl,
      List.flatMap_cons] at h
    rcases List.mem_append.1 h with h | h
    · exact le_of_eq (mem_lineSeg_lineNum lookupFn n l x h).symm
    · have := ih (n + 1) x h
      omega

theorem pairwise_lineNum (lookupFn : String → Option String) (lines : List String) :
    ∀ n, List.Pairwise (fun a b => a.2.2 ≤ b.2.2)
      ((List.enumFrom n lines).flatMap (fun p => lineSeg lookupFn p.1 p.2)) := by
  induction lines with
  | nil =>
    intro n
    simp [List.enumFrom]
  | cons l ls ih =>
    intro n
    rw [show List.enumFrom n (l :: ls) = (n, l) :: List.enumFrom (n + 1) ls from rfl,
      List.flatMap_cons]
    apply List.pairwise_append.2
    refine ⟨?_, ih (n + 1), ?_⟩
    · apply List.pairwise_of_forall_mem_list
      intro a ha b hb
      rw [mem_lineSeg_lineNum lookupFn n l a ha, mem_lineSeg_lineNum lookupFn n l b hb]
    · intro a ha b hb
      rw [mem_lineSeg_lineNum lookupFn n l a ha]
      have := lineNum_lower_bound lookupFn ls (n + 1) b hb
      omega

theorem filter_lineNum_segment (lookupFn : String → Option String) (lines : List String) :
    ∀ (n j : Nat),
      ((List.enumFrom n lines).flatMap (fun p => lineSeg lookupFn p.1 p.2)).filter
          (fun x => x.2.2 == n + j + 1) =
        (match lines.get? j with
         | some line => lineSeg lookupFn (n + j) line
         | none => []) := by
  induction lines with
  | nil =>
    intro n j
    simp [List.enumFrom]
  | cons l ls ih =>
    intro n j
    rw [show List.enumFrom n (l :: ls) = (n, l) :: List.enumFrom (n + 1) ls from rfl,
      List.flatMap_cons, List.filter_append]
    cases j with
    | zero =>
      have h1 : (lineSeg lookupFn n l).filter (fun x => x.2.2 == n + 0 + 1) =
          lineSeg lookupFn n l := by
        apply List.filter_eq_self.2
        intro a ha
        simp [mem_lineSeg_lineNum lookupFn n l a ha]
      have h2 : ((List.enumFrom (n + 1) ls).flatMap
          (fun p => lineSeg lookupFn p.1 p.2)).filter (fun x => x.2.2 == n + 0 + 1) = [] := by
        apply List.filter_eq_nil_iff.2
        intro a ha
        have := lineNum_lower_bound lookupFn ls (n + 1) a ha
        simp only [beq_iff_eq]
        omega
      rw [h1, h2, List.append_nil]
      rfl
    | succ j' =>
      have h1 : (lineSeg lookupFn n l).filter (fun x => x.2.2 == n + (j' + 1) + 1) = [] := by
        apply List.filter_eq_nil_iff.2
        intro a ha
        have := mem_lineSeg_lineNum lookupFn n l a ha
        simp only [beq_iff_eq]
        omega
      have h2 := ih (n + 1) j'
      rw [h1, List.nil_append,
        show n + (j' + 1) + 1 = (n + 1) + j' + 1 from by omega, h2,
        show (n + 1) + j' = n + (j' + 1) from by omega]
      rfl

/-- Membership at line number i+1 pins the occurrence to the segment
emitted for line i. -/
theorem extract_links_mem_line (content : String) (i : Nat) (line : String)
    (hline : (rustLines content).get? i = some line) (t u : String)
    (h : (t, u, i + 1) ∈ extract_links content) :
    (t, u, i + 1) ∈ lineSeg (rdLookup (buildRefDefs (rustLines content))) i line := by
  have hf := filter_lineNum_segment (rdLookup (buildRefDefs (rustLines content)))
    (rustLines content) 0 i
  rw [hline] at hf
  have hmemf : (t, u, i + 1) ∈ ((List.enumFrom 0 (rustLines content)).flatMap
      (fun p => lineSeg (rdLookup (buildRefDefs (rustLines content))) p.1 p.2)).filter
      (fun x => x.2.2 == 0 + i + 1) := by
    apply List.mem_filter.2
    refine ⟨h, by simp⟩
  rw [hf] at hmemf
  simpa using hmemf

/-- C6: the extractor's output is ordered top-to-bottom — reported line
numbers are pairwise nondecreasing along the list — and the occurrences
carrying line number i+1 are exactly the segment the scan of line i
produces: all of that line's inline matches (in left-to-right scan order)
followed by all of its reference-style matches. -/
theorem c6_output_ordered (content : String) :
    List.Pairwise (fun a b => a.2.2 ≤ b.2.2) (extract_links content) ∧
    (∀ i line, (rustLines content).get? i = some line →
      (extract_links content).filter (fun x => x.2.2 == i + 1) =
        lineSeg (rdLookup (buildRefDefs (rustLines content))) i line) := by
  constructor
  · exact pairwise_lineNum (rdLookup (buildRefDefs (rustLines content))) (rustLines content) 0
  · intro i line hline
    have hf := filter_lineNum_segment (rdLookup (buildRefDefs (rustLines content)))
      (rustLines content) 0 i
    rw [hline] at hf
    simpa using hf

/-- Witness for C6 at a one-line document. -/
theorem c6_output_ordered_witness :
    ((rustLines "[a](b)").get? 0 = some "[a](b)") ∧
    (extract_links "[a](b)").filter (fun x => x.2.2 == 0 + 1) =
      lineSeg (rdLookup (buildRefDefs (rustLines "[a](b)"))) 0 "[a](b)" :=
  ⟨by decide, (c6_output_ordered "[a](b)").2 0 "[a](b)" (by decide)⟩

/-! ## Extractor claims: C4 (definition lines) -/

theorem splitAtFirst_append_not_mem (c : Char) (a b : List Char) (h : c ∉ a) :
    splitAtFirst c (a ++ c :: b) = some (a, b) := by
  induction a with
  | nil => simp [splitAtFirst]
  | cons x xs ih =>
    have hx : ¬ x = c := fun e => h (by rw [e]; exact List.mem_cons_self c xs)
    have hxs : c ∉ xs := fun hm => h (List.mem_cons_of_mem x hm)
    simp [splitAtFirst, hx, ih hxs]

/-- On a tail of shape "label]:rest" the inline attempt fails: the first
']' is followed by ':', not by '('. -/
theorem matchInline_colon_none (B R : List Char) (hB : ']' ∉ B) :
    matchInlineAfterBracket (B ++ ']' :: ':' :: R) = none := by
  rw [matchInlineAfterBracket, splitAtFirst_append_not_mem ']' B (':' :: R) hB]
  by_cases hBe : B.isEmpty <;> simp [hBe]

/-- On a tail of shape "label]:rest" the reference attempt fails: the
first ']' is followed by ':', not by '['. -/
theorem matchRef_colon_none (B R : List Char) (hB : ']' ∉ B) :
    matchRefAfterBracket (B ++ ']' :: ':' :: R) = none := by
  rw [matchRefAfterBracket, splitAtFirst_append_not_mem ']' B (':' :: R) hB]
  by_cases hBe : B.isEmpty <;> simp [hBe]

theorem inlineScanF_defline (R : List Char) (hR : '[' ∉ R) :
    ∀ (fuel : Nat) (l : List Char),
      ('[' ∉ l ∨ ∃ B, ']' ∉ B ∧ l = B ++ ']' :: ':' :: R) →
      inlineScanF fuel l = [] := by
  intro fuel
  induction fuel with
  | zero =>
    intro l _
    cases l <;> rfl
  | succ fuel ih =>
    intro l hl
    cases l with
    | nil => rfl
    | cons c rest =>
      rw [inlineScanF]
      by_cases hc : c = '['
      · rcases hl with hnl | ⟨B, hB, hBl⟩
        · exact absurd (by rw [← hc]; exact List.mem_cons_self c rest) hnl
        · cases B with
          | nil =>
            rw [List.nil_append] at hBl
            injection hBl with h1 h2
            rw [h1] at hc
            exact absurd hc (by decide)
          | cons b B' =>
            rw [List.cons_append] at hBl
            injection hBl with h1 h2
            have hB' : ']' ∉ B' := fun hm => hB (List.mem_cons_of_mem b hm)
            rw [if_pos hc, h2, matchInline_colon_none B' R hB']
            exact ih (B' ++ ']' :: ':' :: R) (Or.inr ⟨B', hB', rfl⟩)
      · rw [if_neg hc]
        apply ih
        rcases hl with hnl | ⟨B, hB, hBl⟩
        · exact Or.inl (fun hm => hnl (List.mem_cons_of_mem c hm))
        · cases B with
          | nil =>
            rw [List.nil_append] at hBl
            injection hBl with h1 h2
            left
            rw [h2]
            intro hm
            rcases List.mem_cons.1 hm with hm | hm
            · exact absurd hm (by decide)
            · exact hR hm
          | cons b B' =>
            rw [List.cons_append] at hBl
            injection hBl with h1 h2
            exact Or.inr ⟨B', fun hm => hB (List.mem_cons_of_mem b hm), h2⟩

theorem refScanF_defline (R : List Char) (hR : '[' ∉ R) :
    ∀ (fuel : Nat) (l : List Char),
      ('[' ∉ l ∨ ∃ B, ']' ∉ B ∧ l = B ++ ']' :: ':' :: R) →
      refScanF fuel l = [] := by
  intro fuel
  induction fuel with
  | zero =>
    intro l _
    cases l <;> rfl
  | succ fuel ih =>
    intro l hl
    cases l with
    | nil => rfl
    | cons c rest =>
      rw [refScanF]
      by_cases hc : c = '['
      · rcases hl with hnl | ⟨B, hB, hBl⟩
        · exact absurd (by rw [← hc]; exact List.mem_cons_self c rest) hnl
        · cases B with
          | nil =>
            rw [List.nil_append] at hBl
            injection hBl with h1 h2
            rw [h1] at hc
            exact absurd hc (by decide)
          | cons b B' =>
            rw [List.cons_append] at hBl
            injection hBl with h1 h2
            have hB' : ']' ∉ B' := fun hm => hB (List.mem_cons_of_mem b hm)
            rw [if_pos hc, h2, matchRef_colon_none B' R hB']
            exact ih (B' ++ ']' :: ':' :: R) (Or.inr ⟨B', hB', rfl⟩)
      · rw [if_neg hc]
        apply ih
        rcases hl with hnl | ⟨B, hB, hBl⟩
        · exact Or.inl (fun hm => hnl (List.mem_cons_of_mem c hm))
        · cases B with
          | nil =>
            rw [List.nil_append] at hBl
            injection hBl with h1 h2
            left
            rw [h2]
            intro hm
            rcases List.mem_cons.1 hm with hm | hm
            · exact absurd hm (by decide)
            · exact hR hm
          | cons b B' =>
            rw [List.cons_append] at hBl
            injection hBl with h1 h2
            exact Or.inr ⟨B', fun hm => hB (List.mem_cons_of_mem b hm), h2⟩

/-- C4 (amended): the definition match itself is never reported: a line of
shape "[label]: url" (nonempty ']'-free label, nonempty remainder)
produces no occurrence at all when its remainder after the "]:" contains
no '['. (When the URL part itself contains bracketed link syntax, the
second-pass regexes can still match inside the definition line — that is
the counterexample to the claim as stated.) -/
theorem c4_definition_lines_unreported (content : String) (i : Nat) (line : String)
    (A R : List Char)
    (hline : (rustLines content).get? i = some line)
    (hshape : line.data = '[' :: (A ++ ']' :: ':' :: R))
    (hA : ']' ∉ A) (_hAne : A ≠ []) (_hRne : R ≠ []) (hR : '[' ∉ R) :
    ∀ t u, (t, u, i + 1) ∉ extract_links content := by
  intro t u h
  have hmem := extract_links_mem_line content i line hline t u h
  have hBfull : (']' : Char) ∉ '[' :: A := by
    intro hm
    rcases List.mem_cons.1 hm with hm | hm
    · exact absurd hm (by decide)
    · exact hA hm
  have hinline : inlineScan line.data = [] := by
    rw [inlineScan]
    exact inlineScanF_defline R hR line.data.length line.data
      (Or.inr ⟨'[' :: A, hBfull, by rw [hshape]; rfl⟩)
  have href : refScan line.data = [] := by
    rw [refScan]
    exact refScanF_defline R hR line.data.length line.data
      (Or.inr ⟨'[' :: A, hBfull, by rw [hshape]; rfl⟩)
  rw [lineSeg, hinline, href] at hmem
  simp at hmem

/-- Witness for C4 (amended): a two-line document whose second line is a
plain reference definition emits nothing located on that line. -/
theorem c4_definition_lines_unreported_witness :
    ("z", "w", 2) ∉ extract_links "x\n[lbl]: url" :=
  c4_definition_lines_unreported "x\n[lbl]: url" 1 "[lbl]: url"
    ['l', 'b', 'l'] [' ', 'u', 'r', 'l'] (by decide) (by decide) (by decide) (by decide)
    (by decide) (by decide) "z" "w"

/-- C4 counterexample: this line matches the reference-definition pattern
(the whole remainder after "]:" is the URL), yet extraction reports an
occurrence located on it, because the inline regex matches the bracketed
link inside the URL part. -/
theorem c4_counterexample :
    extract_links "[a]: see [b](c)" = [("b", "c", 1)] ∧
    parseRefDef "[a]: see [b](c)" = some ("a", "see [b](c)") := by
  refine ⟨by decide, by decide⟩

/-! ## Extractor claims: C10 (no empty captures) -/

theorem matchInline_parts_nonempty (l text target rest1 : List Char)
    (h : matchInlineAfterBracket l = some (text, target, rest1)) :
    text ≠ [] ∧ target ≠ [] := by
  rw [matchInlineAfterBracket] at h
  cases hs : splitAtFirst ']' l with
  | none =>
    rw [hs] at h
    exact Option.noConfusion h
  | some p =>
    obtain ⟨tx, r1⟩ := p
    rw [hs] at h
    simp only at h
    by_cases htx : tx.isEmpty
    · rw [if_pos htx] at h
      exact Option.noConfusion h
    · rw [if_neg htx] at h
      cases r1 with
      | nil => exact Option.noConfusion h
      | cons c r2 =>
        simp only at h
        by_cases hc : c = '('
        · rw [if_pos hc] at h
          cases ht : splitAtFirst ')' r2 with
          | none =>
            rw [ht] at h
            exact Option.noConfusion h
          | some q =>
            obtain ⟨tg, r3⟩ := q
            rw [ht] at h
            simp only at h
            by_cases htg : tg.isEmpty
            · rw [if_pos htg] at h
              exact Option.noConfusion h
            · rw [if_neg htg] at h
              have he := Option.some_inj.1 h
              have he1 : tx = text := congrArg Prod.fst he
              have he2 : tg = target := congrArg (fun z => z.2.1) he
              constructor
              · rw [← he1]
                exact fun e => htx (by rw [e]; rfl)
              · rw [← he2]
                exact fun e => htg (by rw [e]; rfl)
        · rw [if_neg hc] at h
          exact Option.noConfusion h

theorem matchRef_text_nonempty (l text label rest1 : List Char)
    (h : matchRefAfterBracket l = some (text, label, rest1)) :
    text ≠ [] := by
  rw [matchRefAfterBracket] at h
  cases hs : splitAtFirst ']' l with
  | none =>
    rw [hs] at h
    exact Option.noConfusion h
  | some p =>
    obtain ⟨tx, r1⟩ := p
    rw [hs] at h
    simp only at h
    by_cases htx : tx.isEmpty
    · rw [if_pos htx] at h
      exact Option.noConfusion h
    · rw [if_neg htx] at h
      cases r1 with
      | nil => exact Option.noConfusion h
      | cons c r2 =>
        simp only at h
        by_cases hc : c = '['
        · rw [if_pos hc] at h
          cases ht : splitAtFirst ']' r2 with
          | none =>
            rw [ht] at h
            exact Option.noConfusion h
          | some q =>
            obtain ⟨lb, r3⟩ := q
            rw [ht] at h
            simp only at h
            have he1 : tx = text := congrArg Prod.fst (Option.some_inj.1 h)
            rw [← he1]
            exact fun e => htx (by rw [e]; rfl)
        · rw [if_neg hc] at h
          exact Option.noConfusion h

theorem inlineScanF_nonempty :
    ∀ (fuel : Nat) (l : List Char) (t u : String), (t, u) ∈ inlineScanF fuel l →
      t ≠ "" ∧ u ≠ "" := by
  intro fuel
  induction fuel with
  | zero =>
    intro l t u h
    cases l <;> exact absurd h (List.not_mem_nil _)
  | succ fuel ih =>
    intro l t u h
    cases l with
    | nil => exact absurd h (List.not_mem_nil _)
    | cons c rest =>
      rw [inlineScanF] at h
      by_cases hc : c = '['
      · rw [if_pos hc] at h
        cases hm : matchInlineAfterBracket rest with
        | none =>
          rw [hm] at h
          exact ih rest t u h
        | some trip =>
          obtain ⟨tx, tg, r1⟩ := trip
          rw [hm] at h
          rcases List.mem_cons.1 h with h | h
          · obtain ⟨hne1, hne2⟩ := matchInline_parts_nonempty rest tx tg r1 hm
            have h1 : t = String.mk tx := congrArg Prod.fst h
            have h2 : u = String.mk tg := congrArg Prod.snd h
            constructor
            · rw [h1]
              intro he
              exact hne1 (by simpa using congrArg String.data he)
            · rw [h2]
              intro he
              exact hne2 (by simpa using congrArg String.data he)
          · exact ih r1 t u h
      · rw [if_neg hc] at h
        exact ih rest t u h

theorem refScanF_nonempty :
    ∀ (fuel : Nat) (l : List Char) (t lab : String), (t, lab) ∈ refScanF fuel l →
      t ≠ "" := by
  intro fuel
  induction fuel with
  | zero =>
    intro l t lab h
    cases l <;> exact absurd h (List.not_mem_nil _)
  | succ fuel ih =>
    intro l t lab h
    cases l with
    | nil => exact absurd h (List.not_mem_nil _)
    | cons c rest =>
      rw [refScanF] at h
      by_cases hc : c = '['
      · rw [if_pos hc] at h
        cases hm : matchRefAfterBracket rest with
        | none =>
          rw [hm] at h
          exact ih rest t lab h
        | some trip =>
          obtain ⟨tx, lb, r1⟩ := trip
          rw [hm] at h
          rcases List.mem_cons.1 h with h | h
          · have hne1 := matchRef_text_nonempty rest tx lb r1 hm
            have h1 : t = String.mk tx := congrArg Prod.fst h
            rw [h1]
            intro he
            exact hne1 (by simpa using congrArg String.data he)
          · exact ih r1 t lab h
      · rw [if_neg hc] at h
        exact ih rest t lab h

theorem inlineScan_nonempty (l : List Char) (t u : String) (h : (t, u) ∈ inlineScan l) :
    t ≠ "" ∧ u ≠ "" :=
  inlineScanF_nonempty l.length l t u h

theorem extract_links_text_nonempty (content : String) (t u : String) (n : Nat)
    (h : (t, u, n) ∈ extract_links content) : t ≠ "" := by
  simp only [extract_links] at h
  obtain ⟨p, _, hp⟩ := List.mem_flatMap.1 h
  rw [lineSeg] at hp
  rcases List.mem_append.1 hp with hp | hp
  · obtain ⟨q, hq, he⟩ := List.mem_map.1 hp
    have hne := (inlineScan_nonempty _ _ _ hq).1
    have h1 : q.1 = t := congrArg Prod.fst he
    exact h1 ▸ hne
  · obtain ⟨q, hq, he⟩ := List.mem_filterMap.1 hp
    cases hl : rdLookup (buildRefDefs (rustLines content)) (refKey q.1 q.2) with
    | none =>
      rw [hl] at he
      exact Option.noConfusion he
    | some url =>
      rw [hl] at he
      have hq1 := refScanF_nonempty _ _ _ _ hq
      have h1 : q.1 = t := congrArg Prod.fst (Option.some_inj.1 he)
      exact h1 ▸ hq1

/-- C10: every emitted link has nonempty display text (both regexes demand
a one-or-more bracket group), and every inline capture has nonempty text
and target (the parenthesized group is also one-or-more); in particular
inputs like "[](x)" or "[a]()" produce no occurrence. -/
theorem c10_no_empty_captures :
    (∀ content t u n, (t, u, n) ∈ extract_links content → t ≠ "") ∧
    (∀ l t u, (t, u) ∈ inlineScan l → t ≠ "" ∧ u ≠ "") ∧
    extract_links "[](x)" = [] ∧ extract_links "[a]()" = [] :=
  ⟨extract_links_text_nonempty, inlineScan_nonempty, by decide, by decide⟩

/-- Witness for C10 at a concrete one-link document. -/
theorem c10_no_empty_captures_witness :
    (("a", "b", 1) ∈ extract_links "[a](b)") ∧ ("a" : String) ≠ "" :=
  ⟨by decide, c10_no_empty_captures.1 "[a](b)" "a" "b" 1 (by decide)⟩

end Doclink
